import Mathlib

/-!
Verification of the SedGen weathering engine (src/sedgen/initialization.py)
against its natural-language specification.  Python/numpy operations are
shallowly embedded as Lean functions over lists; machine unsigned integers
are modelled as Nat (the modelled runs stay inside the value range, noted
where a numpy dtype could wrap), floating point volumes as Rat.
-/

namespace SedGen

/-- Descending run modelling `np.arange(size, 0, -1)` inside
`create_interface_location_prob` (initialization.py line 1360):
`ranger h = [h, h-1, ..., 1]`. -/
def ranger (h : Nat) : List Nat :=
  (List.range h).map (fun i => h - i)

/-- Embedding of `create_interface_location_prob` (initialization.py lines
1348-1363) as a function of the array size `n = a.size` (the function only
reads `a.size`; the standard-case table entry looked up for a pcg of length
`n` is built from `np.arange(n)` and so coincides with the direct call on
the pcg): `size, corr = divmod(a.size, 2)`,
`ranger = np.arange(size, 0, -1)`,
`chance = np.append(ranger, ranger[-2+corr::-1])`.
The slice `ranger[-2+corr::-1]` walks backwards from index `h - 2 + corr`
to index 0, i.e. it is the reverse of the first `h - 1 + corr` elements of
`ranger` (for `corr = 1` the whole run reversed, for `corr = 0` the run
without its last element reversed). -/
def create_interface_location_prob (n : Nat) : List Nat :=
  let h := n / 2
  ranger h ++ ((ranger h).take (h - 1 + n % 2)).reverse

/-- The interface-location weight sequence exactly as claim C7 words it:
"floor(n/2), floor(n/2)-1, ..., 1, followed by an extra 1 when n is odd,
followed by 1, 2, ..., floor(n/2)". -/
def claimedLocationSeq (n : Nat) : List Nat :=
  ranger (n / 2) ++ (if n % 2 = 1 then [1] else []) ++
    (List.range (n / 2)).map (fun i => i + 1)

/-- The corrected interface-location weight sequence: descending run
`floor(n/2), ..., 1`, then `n % 2` extra copies of 1 (one exactly when `n`
is odd), then the ascending run starting at 2:
`2, 3, ..., floor(n/2)`. -/
def amendedLocationSeq (n : Nat) : List Nat :=
  ranger (n / 2) ++ List.replicate (n % 2) 1 ++
    (List.range (n / 2 - 1)).map (fun i => i + 2)

theorem ranger_succ (h : Nat) : ranger (h + 1) = (h + 1) :: ranger h := by
  unfold ranger
  rw [List.range_succ_eq_map, List.map_cons, List.map_map]
  refine congrArg₂ (· :: ·) (by omega) ?_
  refine List.map_congr_left fun a _ => ?_
  show h + 1 - (a + 1) = h - a
  omega

theorem length_ranger (h : Nat) : (ranger h).length = h := by
  simp [ranger]

theorem ranger_reverse (h : Nat) :
    (ranger h).reverse = (List.range h).map (fun i => i + 1) := by
  induction h with
  | zero => simp [ranger]
  | succ k ih =>
      rw [ranger_succ, List.reverse_cons, ih, List.range_succ,
          List.map_append]
      simp

theorem asc_eq_cons (k : Nat) :
    (List.range (k + 1)).map (fun i => i + 1)
      = 1 :: (List.range k).map (fun i => i + 2) := by
  rw [List.range_succ_eq_map, List.map_cons, List.map_map]
  exact congrArg₂ (· :: ·) rfl (List.map_congr_left fun a _ => rfl)

theorem ranger_map_add_one (h : Nat) :
    ranger (h + 1) = (ranger h).map (fun x => x + 1) ++ [1] := by
  induction h with
  | zero => rfl
  | succ k ih =>
      calc ranger (k + 1 + 1)
          = (k + 1 + 1) :: ranger (k + 1) := ranger_succ (k + 1)
        _ = (k + 1 + 1) :: ((ranger k).map (fun x => x + 1) ++ [1]) := by
              rw [ih]
        _ = ((k + 1) :: ranger k).map (fun x => x + 1) ++ [1] := by simp
        _ = (ranger (k + 1)).map (fun x => x + 1) ++ [1] := by
              rw [ranger_succ k]

theorem ranger_take (k : Nat) :
    (ranger (k + 1)).take k = (ranger k).map (fun x => x + 1) := by
  rw [ranger_map_add_one]
  exact List.take_left' (by simp [length_ranger])

theorem one_le_of_mem_ranger {h x : Nat} (hx : x ∈ ranger h) : 1 ≤ x := by
  simp only [ranger, List.mem_map, List.mem_range] at hx
  obtain ⟨i, hi, rfl⟩ := hx
  omega

theorem create_interface_location_prob_eq_amended {n : Nat} (h2 : 2 ≤ n) :
    create_interface_location_prob n = amendedLocationSeq n := by
  obtain ⟨k, hk⟩ : ∃ k, n / 2 = k + 1 := ⟨n / 2 - 1, by omega⟩
  rcases Nat.mod_two_eq_zero_or_one n with hmod | hmod
  · simp only [create_interface_location_prob, amendedLocationSeq, hmod, hk]
    rw [Nat.add_zero, Nat.add_sub_cancel, ranger_take, ← List.map_reverse,
        ranger_reverse, List.map_map, List.replicate_zero, List.append_nil]
    exact congrArg (ranger (k + 1) ++ ·)
      (List.map_congr_left fun a _ => rfl)
  · simp only [create_interface_location_prob, amendedLocationSeq, hmod, hk]
    have ht : k + 1 - 1 + 1 = k + 1 := by omega
    rw [ht, Nat.add_sub_cancel,
        List.take_of_length_le (le_of_eq (length_ranger (k + 1))),
        ranger_reverse, asc_eq_cons]
    simp

theorem length_create_interface_location_prob {n : Nat} (h2 : 2 ≤ n) :
    (create_interface_location_prob n).length = n - 1 := by
  simp only [create_interface_location_prob, List.length_append,
             List.length_reverse, List.length_take, length_ranger]
  omega

/-- Claim C7, counterexample: for the even pcg length `n = 4` the code
produces the three weights `[2, 1, 2]` while the sequence spelled out by
the claim is `[2, 1, 1, 2]`. -/
theorem c7_counterexample :
    create_interface_location_prob 4 ≠ claimedLocationSeq 4 := by
  decide

/-- Claim C7 (amended): for every pcg length `n ≥ 2` the interface location
weight array covers the `n - 1` interface positions and equals
`floor(n/2), floor(n/2)-1, ..., 1`, followed by an extra 1 exactly when `n`
is odd, followed by the ascending run `2, 3, ..., floor(n/2)` (starting at
2, not at 1 as the claim words it). -/
theorem c7_location_weights (n : Nat) (h2 : 2 ≤ n) :
    create_interface_location_prob n = amendedLocationSeq n ∧
      (create_interface_location_prob n).length = n - 1 :=
  ⟨create_interface_location_prob_eq_amended h2,
   length_create_interface_location_prob h2⟩

theorem c7_location_weights_witness :
    create_interface_location_prob 5 = amendedLocationSeq 5 ∧
      (create_interface_location_prob 5).length = 5 - 1 :=
  c7_location_weights 5 (by decide)

/-- Claim C8: for every pcg length `n ≥ 2`, even or odd, the array returned
by `create_interface_location_prob` equals its own reverse. -/
theorem c8_location_palindrome (n : Nat) (h2 : 2 ≤ n) :
    (create_interface_location_prob n).reverse
      = create_interface_location_prob n := by
  obtain ⟨k, hk⟩ : ∃ k, n / 2 = k + 1 := ⟨n / 2 - 1, by omega⟩
  rcases Nat.mod_two_eq_zero_or_one n with hmod | hmod
  · simp only [create_interface_location_prob, hmod, hk]
    rw [Nat.add_zero, Nat.add_sub_cancel, ranger_take, ranger_map_add_one]
    simp
  · simp only [create_interface_location_prob, hmod, hk]
    have ht : k + 1 - 1 + 1 = k + 1 := by omega
    rw [ht, List.take_of_length_le (le_of_eq (length_ranger (k + 1)))]
    simp

theorem c8_location_palindrome_witness :
    (create_interface_location_prob 6).reverse
      = create_interface_location_prob 6 :=
  c8_location_palindrome 6 (by decide)

/-! ## Intra-crystal breakage (initialization.py lines 938-1025) -/

/-- One `array[idx] += v` with numpy index semantics: a negative index
wraps once from the end; an index that stays out of range (which would
raise IndexError in numpy) leaves the list unchanged — the modelled runs
stay in range. -/
def npAddAt (l : List Nat) (idx : Int) (v : Nat) : List Nat :=
  let j : Int := if idx < 0 then idx + l.length else idx
  if 0 ≤ j ∧ j < l.length then l.set j.toNat (l.getD j.toNat 0 + v) else l

/-- Fancy-indexed `array[idxs] += vals`; the index vectors produced by
`perform_intra_crystal_breakage_2d` are pairwise distinct, for which
numpy's buffered in-place add agrees with this sequential fold. -/
def npAddAtAll (l : List Nat) (idxs : List Int) (vals : List Nat) :
    List Nat :=
  (idxs.zip vals).foldl (fun acc iv => npAddAt acc iv.1 iv.2) l

/-- The selection step of `perform_intra_crystal_breakage_2d`
(initialization.py lines 984-991): `np.floor(mcg_new * prob[m])` when the
`floor` argument is truthy, `np.ceil(...)` otherwise, cast to uint32. -/
def mcgSelected (floorFlag : Bool) (p : ℚ) (mcg : List Nat) : List Nat :=
  if floorFlag then mcg.map (fun x => (Int.floor ((x : ℚ) * p)).toNat)
  else mcg.map (fun x => (Int.ceil ((x : ℚ) * p)).toNat)

/-- `intra_crystal_breakage_binned` passes `floor=alternator % 2`
(initialization.py line 954) and Python truthiness makes the floor branch
run exactly when `alternator % 2` is nonzero, i.e. on odd alternator
values. -/
def alternatorFloorFlag (alternator : Nat) : Bool :=
  alternator % 2 == 1

/-- The per-(mineral, chem-state) tables consumed by intra-crystal
breakage, mirroring the model attributes used in
`perform_intra_crystal_breakage_2d`. -/
structure IntraCbCtx where
  intra_cb_p : List ℚ
  search_bins : Nat → Nat → List ℚ
  intra_cb_breaks : Nat → Nat → List (List Nat)
  diffs_volumes : Nat → Nat → List (List ℚ)
  threshold_bin : Nat → Nat → Nat
  n_bins : Nat

/-- Embedding of `perform_intra_crystal_breakage_2d` (initialization.py
lines 966-1025).  Steps, in source order: select per-bin counts with
floor/ceil, subtract them from the bins at or above
`intra_cb_threshold_bin`, then for each affected bin split the selected
crystals evenly over the usable break offsets (those with positive
residue-volume diff), deposit both children (`mcg_new[p1] += ...`,
`mcg_new[p2] += ...`) and accrue the residue volume.  The local
`residue_count` is initialized to 0 and never incremented in the source;
the returned triple is `(mcg_new, residue_new, residue_count)`.  When the
usable break-offset list is empty the source would raise
ZeroDivisionError in `divmod`; the affected bin is skipped here (the
modelled runs have usable offsets). -/
def perform_intra_crystal_breakage_2d (ctx : IntraCbCtx)
    (mcg_old : List Nat) (m n intra_cb_threshold_bin start_bin_corr : Nat)
    (floorFlag : Bool) : List Nat × ℚ × Nat :=
  let p := ctx.intra_cb_p.getD m 0
  let search_bins := ctx.search_bins m n
  let breaks := ctx.intra_cb_breaks m n
  let diffs := ctx.diffs_volumes n m
  let sel := mcgSelected floorFlag p mcg_old
  let base := mcg_old.enum.map (fun ix =>
    if ix.1 < intra_cb_threshold_bin then ix.2 else ix.2 - sel.getD ix.1 0)
  let step := fun (acc : List Nat × ℚ) (i : Nat) =>
    let n_crystals := sel.getD (intra_cb_threshold_bin + i) 0
    if n_crystals = 0 then acc
    else
      let pairs := (breaks.getD (i + start_bin_corr) []).zip
        (diffs.getD (i + start_bin_corr) [])
      let touse := pairs.filter (fun pr => 0 < pr.2)
      if touse.length = 0 then acc
      else
        let q := n_crystals / touse.length
        let r := n_crystals % touse.length
        let counts := List.replicate (touse.length - 1) q ++ [q + r]
        let p1 : List Int := (List.range counts.length).map
          (fun j => (i : Int) + intra_cb_threshold_bin - (j + 1))
        let p2 : List Int :=
          List.zipWith (fun a b => a - (b : Int)) p1 (touse.map (·.1))
        let mcg2 := npAddAtAll (npAddAtAll acc.1 p1 counts) p2 counts
        let res := search_bins.getD (i + intra_cb_threshold_bin + ctx.n_bins) 0 *
          (List.zipWith (fun d c => d * (c : ℚ)) (touse.map (·.2)) counts).sum
        (mcg2, acc.2 + res)
  let out := (List.range (sel.length - intra_cb_threshold_bin)).foldl step
    (base, 0)
  (out.1, out.2, 0)

/-- Embedding of `intra_crystal_breakage_binned` (initialization.py lines
938-964): per (chem-state, mineral) plane, skip all-zero planes, otherwise
run `perform_intra_crystal_breakage_2d` with
`floor=alternator % 2` and threshold
`intra_cb_threshold_bin_matrix[n, m] + start_bin_corr`; the residue and
residue-count planes are summed over the chem-state axis. -/
def intra_crystal_breakage_binned (ctx : IntraCbCtx)
    (n_timesteps n_minerals start_bin_corr : Nat)
    (mcg : List (List (List Nat))) (alternator : Nat) :
    List (List (List Nat)) × List ℚ × List Nat :=
  let entry := fun (n mi : Nat) =>
    let m_old := (mcg.getD n []).getD mi []
    if m_old.all (fun x => x = 0) then (m_old, (0 : ℚ), (0 : Nat))
    else
      perform_intra_crystal_breakage_2d ctx m_old mi n
        (ctx.threshold_bin n mi + start_bin_corr) start_bin_corr
        (alternatorFloorFlag alternator)
  let mcg_new := (List.range n_timesteps).map (fun n =>
    (List.range n_minerals).map (fun mi => (entry n mi).1))
  let residue := (List.range n_minerals).map (fun mi =>
    ((List.range n_timesteps).map (fun n => (entry n mi).2.1)).sum)
  let residue_count := (List.range n_minerals).map (fun mi =>
    ((List.range n_timesteps).map (fun n => (entry n mi).2.2)).sum)
  (mcg_new, residue, residue_count)

/-- Concrete intra-cb tables used to evaluate the operator on an input
that actually breaks crystals and accrues residue. -/
def exampleIntraCtx : IntraCbCtx where
  intra_cb_p := [1/2]
  search_bins := fun _ _ => [0, 0, 0, 0, 0, 0, 0, 5]
  intra_cb_breaks := fun _ _ => [[1]]
  diffs_volumes := fun _ _ => [[1/10]]
  threshold_bin := fun _ _ => 3
  n_bins := 4

/-- Claim C1, counterexample: at the even timestep `step = 0` the flag
`floor = alternator % 2` is falsy, so the code takes the `np.ceil` branch:
with one mono-crystal in a bin above the threshold and `intra_cb_p = 1/2`
the code selects `ceil(1 * 1/2) = 1` crystal, not `floor(1 * 1/2) = 0` as
the claim states. -/
theorem c1_counterexample :
    mcgSelected (alternatorFloorFlag 0) (1/2) [1] = [1] ∧
      mcgSelected (alternatorFloorFlag 0) (1/2) [1]
        ≠ mcgSelected true (1/2) [1] := by
  have hceil : ⌈(2⁻¹ : ℚ)⌉ = 1 := by
    rw [Int.ceil_eq_iff] <;> norm_num
  have hfloor : ⌊(2⁻¹ : ℚ)⌋ = 0 := by
    rw [Int.floor_eq_iff] <;> norm_num
  refine ⟨?_, ?_⟩ <;>
    simp [mcgSelected, alternatorFloorFlag, hceil, hfloor]

/-- Claim C1 (amended): the number of mono-crystalline grains selected per
bin by intra-crystal breakage at timestep `step` (the alternator) is
`ceil(mcg[k] * p_m)` on even steps and `floor(mcg[k] * p_m)` on odd steps
— the opposite parity of the claim's wording: `floor=alternator % 2` makes
the floor branch run on odd alternator values. -/
theorem c1_intra_selection_alternation (step : Nat) (p : ℚ)
    (mcg : List Nat) :
    mcgSelected (alternatorFloorFlag step) p mcg
      = if step % 2 = 0
        then mcg.map (fun x => (Int.ceil ((x : ℚ) * p)).toNat)
        else mcg.map (fun x => (Int.floor ((x : ℚ) * p)).toNat) := by
  rcases Nat.mod_two_eq_zero_or_one step with h | h <;>
    simp [mcgSelected, alternatorFloorFlag, h]

/-- Claim C9: `perform_intra_crystal_breakage_2d` returns
`residue_count = 0` for every model state, mineral, chem-state and
alternator (the local counter is never incremented), hence every
per-mineral residue-count total of `intra_crystal_breakage_binned` is 0 —
even on inputs where breakage occurs and residue volume is accrued, as the
concrete run in the last conjunct shows. -/
theorem c9_residue_count_zero :
    (∀ (ctx : IntraCbCtx) (mcg_old : List Nat)
      (m n thr corr : Nat) (fl : Bool),
      (perform_intra_crystal_breakage_2d ctx mcg_old m n thr corr fl).2.2
        = 0) ∧
    (∀ (ctx : IntraCbCtx) (T M corr : Nat)
      (mcg : List (List (List Nat))) (alternator : Nat),
      ∀ x ∈ (intra_crystal_breakage_binned ctx T M corr mcg alternator).2.2,
        x = 0) ∧
    perform_intra_crystal_breakage_2d exampleIntraCtx [0, 0, 0, 4] 0 0 3 0
        false
      = ([0, 2, 2, 2], 1, 0) := by
  refine ⟨fun ctx mcg_old m n thr corr fl => rfl, ?_, ?_⟩
  · intro ctx T M corr mcg alternator x hx
    simp only [intra_crystal_breakage_binned, List.mem_map] at hx
    obtain ⟨mi, hmi, rfl⟩ := hx
    apply List.sum_eq_zero
    intro y hy
    simp only [List.mem_map] at hy
    obtain ⟨nn, hnn, rfl⟩ := hy
    by_cases hz :
        (((mcg.getD nn []).getD mi []).all fun x => decide (x = 0)) = true
    · rw [if_pos hz]
    · rw [if_neg hz]
      rfl
  · have h0 : ⌈((0 : ℕ) : ℚ) * (1/2)⌉ = 0 := by
      rw [Int.ceil_eq_iff] <;> norm_num
    have h4 : ⌈((4 : ℕ) : ℚ) * (1/2)⌉ = 2 := by
      rw [Int.ceil_eq_iff] <;> norm_num
    norm_num [perform_intra_crystal_breakage_2d, exampleIntraCtx,
      mcgSelected, npAddAtAll, npAddAt, List.enum, List.enumFrom,
      List.range_succ, h0, h4]
    exact ⟨by decide, by rw [show Int.toNat 2 = 2 from rfl]; norm_num⟩

/-! ## Chemical weathering of mcgs (initialization.py lines 1027-1067) -/

/-- `np.roll(a, shift=1, axis=0)`: `[a0, ..., a_last]` becomes
`[a_last, a0, ..., a_secondlast]` — the last chem-state slot wraps around
into slot 0. -/
def np_roll1 {α : Type} (l : List α) : List α :=
  match l.reverse with
  | [] => []
  | x :: rest => x :: rest.reverse

/-- `(mcg_new[0] == 0).all()`: every count of the (mineral, bin) slot is
zero. -/
def slotAllZero (slot : List (List Nat)) : Bool :=
  slot.all (fun row => row.all (fun x => x == 0))

/-- Elementwise slot addition, the `mcg_new[-1] += mcg_new[0]` fold. -/
def addSlot (a b : List (List Nat)) : List (List Nat) :=
  List.zipWith (fun ra rb => List.zipWith (fun x y => x + y) ra rb) a b

/-- numpy `mcg_new[0] = 0`: scalar assignment zeroes every entry of the
slot, keeping its shape. -/
def zeroSlot (slot : List (List Nat)) : List (List Nat) :=
  slot.map (fun row => row.map (fun _ => 0))

/-- The bin tables consumed by `chemical_weathering_mcg`:
`negative_volume_thresholds[n, m]`, `volume_bins_medians_matrix[n, m, k]`
and `volume_change_matrix[n, m, k]` (the latter aligned with chem-states
`1..T-1`, indexed here by `n - 1`). -/
structure ChemMcgCtx where
  negative_volume_thresholds : Nat → Nat → Nat
  volume_bins_medians_matrix : Nat → Nat → Nat → ℚ
  volume_change_matrix : Nat → Nat → Nat → ℚ

/-- The residue_1 loop of `chemical_weathering_mcg` (initialization.py
lines 1035-1043) zeroes `mcg_new[n, m, :threshold]` for chem-states
`n ≥ 1` only; slot 0 (the rolled-around one) is left untouched. -/
def thresholdZeroedSlots (ctx : ChemMcgCtx)
    (rolled : List (List (List Nat))) : List (List (List Nat)) :=
  rolled.enum.map (fun ns =>
    if ns.1 = 0 then ns.2
    else ns.2.enum.map (fun mr =>
      mr.2.enum.map (fun kx =>
        if kx.1 < ctx.negative_volume_thresholds ns.1 mr.1 then 0
        else kx.2)))

/-- residue_1 per mineral: dissolved counts of the rolled array (below the
per-state threshold) weighted with the previous-state bin medians. -/
def chemMcgResidue1 (ctx : ChemMcgCtx) (n_minerals : Nat)
    (rolled : List (List (List Nat))) : List ℚ :=
  (List.range n_minerals).map (fun m =>
    (((List.range rolled.length).drop 1).map (fun n =>
      ((((rolled.getD n []).getD m []).take
          (ctx.negative_volume_thresholds n m)).enum.map
        (fun kx => (kx.2 : ℚ) *
          ctx.volume_bins_medians_matrix (n - 1) m kx.1)).sum)).sum)

/-- residue_2 per mineral: `np.sum(np.sum(mcg_new[1:] *
volume_change_matrix, axis=0), axis=1)`, evaluated on the
threshold-zeroed array (the zeroing happens before this line in the
source). -/
def chemMcgResidue2 (ctx : ChemMcgCtx) (n_minerals : Nat)
    (zeroed : List (List (List Nat))) : List ℚ :=
  (List.range n_minerals).map (fun m =>
    (((List.range zeroed.length).drop 1).map (fun n =>
      (((zeroed.getD n []).getD m []).enum.map
        (fun kx => (kx.2 : ℚ) *
          ctx.volume_change_matrix (n - 1) m kx.1)).sum)).sum)

/-- Embedding of `chemical_weathering_mcg` (initialization.py lines
1027-1067): roll the chem-state axis by one, zero the sub-threshold bins
of states `1..T-1` into residue_1, take residue_2 from the surviving
counts, then — iff the rolled-around slot 0 is non-empty — fold slot 0
into the last slot, zero slot 0 and warn (the third component is the
warning flag). -/
def chemical_weathering_mcg (ctx : ChemMcgCtx) (n_minerals : Nat)
    (mcg : List (List (List Nat))) :
    List (List (List Nat)) × List ℚ × Bool :=
  let rolled := np_roll1 mcg
  let zeroed := thresholdZeroedSlots ctx rolled
  let residue := List.zipWith (fun a b => a + b)
    (chemMcgResidue1 ctx n_minerals rolled)
    (chemMcgResidue2 ctx n_minerals zeroed)
  if slotAllZero (zeroed.headD []) then (zeroed, residue, false)
  else
    let withLast := zeroed.set (zeroed.length - 1)
      (addSlot (zeroed.getLastD []) (zeroed.headD []))
    (withLast.set 0 (zeroSlot (withLast.headD [])), residue, true)

theorem np_roll1_concat {α : Type} (ys : List α) (x : α) :
    np_roll1 (ys ++ [x]) = x :: ys := by
  simp [np_roll1]

theorem np_roll1_length {α : Type} (l : List α) :
    (np_roll1 l).length = l.length := by
  rcases l.eq_nil_or_concat with rfl | ⟨ys, x, rfl⟩
  · rfl
  · simp [np_roll1_concat]

theorem np_roll1_headD {α : Type} (l : List α) (d : α) (h : l ≠ []) :
    (np_roll1 l).headD d = l.getLastD d := by
  rcases l.eq_nil_or_concat with rfl | ⟨ys, x, rfl⟩
  · exact absurd rfl h
  · rw [List.concat_eq_append, np_roll1_concat,
        List.getLastD_eq_getLast?, List.getLast?_concat]
    rfl

theorem headD_thresholdZeroedSlots (ctx : ChemMcgCtx)
    (rolled : List (List (List Nat))) :
    (thresholdZeroedSlots ctx rolled).headD [] = rolled.headD [] := by
  cases rolled with
  | nil => rfl
  | cons a t => simp [thresholdZeroedSlots]

theorem length_thresholdZeroedSlots (ctx : ChemMcgCtx)
    (rolled : List (List (List Nat))) :
    (thresholdZeroedSlots ctx rolled).length = rolled.length := by
  simp [thresholdZeroedSlots]

theorem headD_set_succ {α : Type} (l : List α) (i : Nat) (x d : α) :
    (l.set (i + 1) x).headD d = l.headD d := by
  cases l <;> simp

theorem headD_set_zero {α : Type} (l : List α) (x d : α) (h : l ≠ []) :
    (l.set 0 x).headD d = x := by
  cases l with
  | nil => exact absurd rfl h
  | cons a t => simp

theorem getLastD_set_last {α : Type} (l : List α) (x d : α) (h : l ≠ []) :
    (l.set (l.length - 1) x).getLastD d = x := by
  induction l generalizing d with
  | nil => exact absurd rfl h
  | cons a t ih =>
      cases t with
      | nil => simp
      | cons b u =>
          have hlen : (a :: b :: u).length - 1 = ((b :: u).length - 1) + 1 := by
            simp
          rw [hlen, List.set_cons_succ, List.getLastD_cons]
          exact ih a (by simp)

theorem getLastD_ne_nil_default {α : Type} (l : List α) (d e : α)
    (h : l ≠ []) : l.getLastD d = l.getLastD e := by
  rw [List.getLastD_eq_getLast?, List.getLastD_eq_getLast?]
  obtain ⟨y, hy⟩ := Option.isSome_iff_exists.mp
    (List.getLast?_isSome.mpr h)
  rw [hy]
  rfl

theorem getLastD_set_zero {α : Type} (l : List α) (x d : α)
    (h : 2 ≤ l.length) : (l.set 0 x).getLastD d = l.getLastD d := by
  cases l with
  | nil => simp at h
  | cons a t =>
      have ht : t ≠ [] := by
        cases t
        · simp at h
        · simp
      rw [List.set_cons_zero, List.getLastD_cons, List.getLastD_cons]
      exact getLastD_ne_nil_default t x a ht

/-- Claim C6: `chemical_weathering_mcg` first rolls the mcg array by one
along the chem-state axis (the head of the rolled array is the old last
slot, i.e. state T-1 wraps into state 0); then it folds, zeroing slot 0
and adding it into the last slot with a warning, if and only if the
rolled-around slot 0 is non-empty; when slot 0 is all zero the
threshold-zeroed rolled array is returned unchanged with no warning. -/
theorem c6_chem_mcg_roll_and_fold (ctx : ChemMcgCtx) (M : Nat)
    (mcg : List (List (List Nat))) (h2 : 2 ≤ mcg.length) :
    (np_roll1 mcg).headD [] = mcg.getLastD [] ∧
    ((chemical_weathering_mcg ctx M mcg).2.2 = true ↔
      slotAllZero ((np_roll1 mcg).headD []) = false) ∧
    (slotAllZero ((np_roll1 mcg).headD []) = true →
      (chemical_weathering_mcg ctx M mcg).1
        = thresholdZeroedSlots ctx (np_roll1 mcg)) ∧
    (slotAllZero ((np_roll1 mcg).headD []) = false →
      (chemical_weathering_mcg ctx M mcg).1.headD []
          = zeroSlot ((np_roll1 mcg).headD []) ∧
        (chemical_weathering_mcg ctx M mcg).1.getLastD []
          = addSlot
              ((thresholdZeroedSlots ctx (np_roll1 mcg)).getLastD [])
              ((np_roll1 mcg).headD [])) := by
  have hne : mcg ≠ [] := by
    cases mcg
    · simp at h2
    · simp
  have hhead : (thresholdZeroedSlots ctx (np_roll1 mcg)).headD []
      = (np_roll1 mcg).headD [] := headD_thresholdZeroedSlots ctx _
  have hlen : (thresholdZeroedSlots ctx (np_roll1 mcg)).length
      = mcg.length := by
    rw [length_thresholdZeroedSlots, np_roll1_length]
  have hzne : thresholdZeroedSlots ctx (np_roll1 mcg) ≠ [] := by
    intro hcontra
    rw [hcontra] at hlen
    simp at hlen
    omega
  refine ⟨np_roll1_headD mcg [] hne, ?_, ?_, ?_⟩
  · rw [← hhead]
    by_cases hb : slotAllZero
        ((thresholdZeroedSlots ctx (np_roll1 mcg)).headD []) = true
    · simp only [chemical_weathering_mcg]
      rw [if_pos hb, hb]
      simp
    · have hb' : slotAllZero
          ((thresholdZeroedSlots ctx (np_roll1 mcg)).headD []) = false := by
        revert hb
        cases slotAllZero ((thresholdZeroedSlots ctx (np_roll1 mcg)).headD [])
        · intro _
          rfl
        · intro hcontra
          exact absurd rfl hcontra
      simp only [chemical_weathering_mcg]
      rw [if_neg hb, hb']
      simp
  · intro hz
    rw [← hhead] at hz
    simp only [chemical_weathering_mcg]
    rw [if_pos hz]
  · intro hz
    rw [← hhead] at hz
    have hneg : ¬ slotAllZero
        ((thresholdZeroedSlots ctx (np_roll1 mcg)).headD []) = true := by
      rw [hz]
      exact Bool.false_ne_true
    constructor
    · simp only [chemical_weathering_mcg]
      rw [if_neg hneg]
      rw [headD_set_zero _ _ _ (by
        intro hcontra
        have hln := congrArg List.length hcontra
        simp only [List.length_set, List.length_nil] at hln
        omega)]
      have hstep : ((thresholdZeroedSlots ctx (np_roll1 mcg)).set
          ((thresholdZeroedSlots ctx (np_roll1 mcg)).length - 1)
          (addSlot ((thresholdZeroedSlots ctx (np_roll1 mcg)).getLastD [])
            ((thresholdZeroedSlots ctx (np_roll1 mcg)).headD []))).headD []
          = (thresholdZeroedSlots ctx (np_roll1 mcg)).headD [] := by
        obtain ⟨i, hi⟩ : ∃ i, (thresholdZeroedSlots ctx
            (np_roll1 mcg)).length - 1 = i + 1 := ⟨mcg.length - 2, by omega⟩
        rw [hi, headD_set_succ]
      rw [hstep, hhead]
    · simp only [chemical_weathering_mcg]
      rw [if_neg hneg]
      rw [getLastD_set_zero _ _ _ (by
            rw [List.length_set]
            omega),
          getLastD_set_last _ _ _ hzne, hhead]

/-- Trivial bin tables for the concrete chem-mcg run of the witness. -/
def exampleChemCtx : ChemMcgCtx where
  negative_volume_thresholds := fun _ _ => 0
  volume_bins_medians_matrix := fun _ _ _ => 0
  volume_change_matrix := fun _ _ _ => 0

theorem c6_chem_mcg_roll_and_fold_witness :
    (np_roll1 [[[1]], [[0]]]).headD [] = [[[1]], [[0]]].getLastD [] ∧
    ((chemical_weathering_mcg exampleChemCtx 1 [[[1]], [[0]]]).2.2 = true ↔
      slotAllZero ((np_roll1 [[[1]], [[0]]]).headD []) = false) ∧
    (slotAllZero ((np_roll1 [[[1]], [[0]]]).headD []) = true →
      (chemical_weathering_mcg exampleChemCtx 1 [[[1]], [[0]]]).1
        = thresholdZeroedSlots exampleChemCtx (np_roll1 [[[1]], [[0]]])) ∧
    (slotAllZero ((np_roll1 [[[1]], [[0]]]).headD []) = false →
      (chemical_weathering_mcg exampleChemCtx 1 [[[1]], [[0]]]).1.headD []
          = zeroSlot ((np_roll1 [[[1]], [[0]]]).headD []) ∧
        (chemical_weathering_mcg exampleChemCtx 1 [[[1]], [[0]]]).1.getLastD []
          = addSlot
              ((thresholdZeroedSlots exampleChemCtx
                (np_roll1 [[[1]], [[0]]])).getLastD [])
              ((np_roll1 [[[1]], [[0]]]).headD [])) :=
  c6_chem_mcg_roll_and_fold exampleChemCtx 1 [[[1]], [[0]]] (by decide)

/-! ## Interface array correction (initialization.py lines 434-510) -/

/-- numpy broadcasting for the elementwise subtraction `a - b` of two 1-D
arrays: defined when the lengths match or either operand has length 1;
any other shape combination raises ValueError, modelled as `none`. -/
def numpyBroadcastSub (a b : List Int) : Option (List Int) :=
  if a.length = b.length then
    some (List.zipWith (fun x y => x - y) a b)
  else if b.length = 1 then some (a.map (fun x => x - b.headD 0))
  else if a.length = 1 then some (b.map (fun y => a.headD 0 - y))
  else none

/-- The per-mineral drift computed at the top of
`perform_interface_array_correction` (initialization.py lines 442-443):
`diff = [np.sum(self.interface_array == x) for x in range(6)] - self.minerals_N`.
The list comprehension is hardcoded to `range(6)` regardless of the
model's `n_minerals`, and the resulting length-6 vector is broadcast
against `minerals_N` (length M). -/
def interfaceArrayCorrectionDiff (interface_array : List Nat)
    (minerals_N : List Int) : Option (List Int) :=
  numpyBroadcastSub
    ((List.range 6).map (fun x => ((interface_array.count x : Nat) : Int)))
    minerals_N

/-- Claim C3: the spec is the intent (crystal conservation for all
`m < M`) but the drift computation hardcodes `range(6)`: with 3 minerals
the subtraction pairs a length-6 count vector with the length-3
`minerals_N` and raises ValueError (modelled `none`), so no repair runs at
all; with 7 minerals it likewise faults, and mineral index 6 is never
among the examined indices `range(6)`. -/
theorem c3_correction_hardcoded_range6 :
    interfaceArrayCorrectionDiff [0, 1, 2, 0, 1, 2] [2, 2, 2] = none ∧
    interfaceArrayCorrectionDiff [6, 6, 0, 1, 2, 3, 4, 5]
        [1, 1, 1, 1, 1, 1, 2] = none ∧
    (6 : Nat) ∉ List.range 6 := by
  refine ⟨?_, ?_, by decide⟩ <;> decide

/-! ## Shallow copy in weathering (initialization.py lines 592-593) -/

/-- The ndarray attributes of a SedGen instance live on a heap of arrays;
an attribute holds a reference (an index) into that heap.  Modelled here
for the arrays the claim names: `interface_counts_matrix`, `residue`,
`residue_count` and the `mcg_evolution` log. -/
structure SedGenRefs where
  interface_counts_matrix : Nat
  residue : Nat
  residue_count : Nat
  mcg_evolution : Nat

/-- `copy.copy(self)` (initialization.py line 593) copies the attribute
dictionary only: the copy holds the very same array references as the
original instance. -/
def copy_copy (s : SedGenRefs) : SedGenRefs :=
  { interface_counts_matrix := s.interface_counts_matrix
    residue := s.residue
    residue_count := s.residue_count
    mcg_evolution := s.mcg_evolution }

/-- Heap of 1-D array contents (matrices stored flattened; integer counts
carried as rationals). -/
def heapRead (h : List (List ℚ)) (r : Nat) : List ℚ := h.getD r []

def heapWrite (h : List (List ℚ)) (r : Nat) (f : List ℚ → List ℚ) :
    List (List ℚ) :=
  h.set r (f (heapRead h r))

/-- In-place array mutations a weathering step performs through `self`:
`self.interface_counts_matrix[pcg[interface-1], pcg[interface]] -= 1`
during inter-crystal breakage (initialization.py line 900) and
`self.residue[step] = residue` (line 627) — both numpy `__setitem__`
calls writing through the shared buffer, never rebinding the attribute. -/
def weathering_step_mutations (h : List (List ℚ)) (self : SedGenRefs)
    (icmIndex stepIndex : Nat) (residueValue : ℚ) : List (List ℚ) :=
  let h1 := heapWrite h self.interface_counts_matrix
    (fun arr => arr.set icmIndex (arr.getD icmIndex 0 - 1))
  heapWrite h1 self.residue (fun arr => arr.set stepIndex residueValue)

/-- `weathering` with `inplace=False`:
`self = self if inplace else copy.copy(self)` and the loop body then
mutates arrays through the shallow copy. -/
def weathering_noninplace (h : List (List ℚ)) (model : SedGenRefs)
    (icmIndex stepIndex : Nat) (residueValue : ℚ) :
    List (List ℚ) × SedGenRefs :=
  let self := copy_copy model
  (weathering_step_mutations h self icmIndex stepIndex residueValue, self)

theorem getD_set_self {α : Type} (l : List α) (i : Nat) (x d : α)
    (h : i < l.length) : (l.set i x).getD i d = x := by
  induction l generalizing i with
  | nil => simp at h
  | cons a t ih =>
      cases i with
      | zero => rfl
      | succ j =>
          rw [List.set_cons_succ]
          exact ih j (by simpa using h)

theorem getD_set_ne {α : Type} (l : List α) (i j : Nat) (x d : α)
    (h : i ≠ j) : (l.set i x).getD j d = l.getD j d := by
  induction l generalizing i j with
  | nil => simp
  | cons a t ih =>
      cases i with
      | zero =>
          cases j with
          | zero => exact absurd rfl h
          | succ k => rfl
      | succ i2 =>
          cases j with
          | zero => rfl
          | succ k =>
              rw [List.set_cons_succ]
              exact ih i2 k (by omega)

/-- Claim C10: `inplace=False` copies the model only shallowly, so array
fields are shared between copy and original: after one weathering step's
in-place mutations run on the copy, reading the interface-counts matrix
(and the residue budget) through the ORIGINAL model's reference yields
the mutated contents, different from before the call. -/
theorem c10_shallow_copy_mutates_original (h : List (List ℚ))
    (model : SedGenRefs) (icmIndex stepIndex : Nat) (v : ℚ)
    (hdisj : model.interface_counts_matrix ≠ model.residue)
    (hr : model.interface_counts_matrix < h.length)
    (hi : icmIndex < (heapRead h model.interface_counts_matrix).length) :
    copy_copy model = model ∧
    heapRead (weathering_noninplace h model icmIndex stepIndex v).1
        model.interface_counts_matrix
      ≠ heapRead h model.interface_counts_matrix := by
  refine ⟨rfl, ?_⟩
  intro hcontra
  have hrw : heapRead (weathering_noninplace h model icmIndex stepIndex v).1
      model.interface_counts_matrix
      = (heapRead h model.interface_counts_matrix).set icmIndex
          ((heapRead h model.interface_counts_matrix).getD icmIndex 0 - 1)
      := by
    simp only [weathering_noninplace, weathering_step_mutations, heapWrite,
      heapRead, copy_copy]
    rw [getD_set_ne _ _ _ _ _ (Ne.symm hdisj), getD_set_self _ _ _ _ hr]
  rw [hrw] at hcontra
  have hval := congrArg (fun l => l.getD icmIndex 0) hcontra
  simp only [getD_set_self _ _ _ _ hi] at hval
  have : (1 : ℚ) = 0 := by linarith
  norm_num at this

theorem c10_shallow_copy_mutates_original_witness :
    copy_copy ⟨0, 1, 2, 3⟩ = ⟨0, 1, 2, 3⟩ ∧
    heapRead (weathering_noninplace [[3], [0]] ⟨0, 1, 2, 3⟩ 0 0 5).1
        (SedGenRefs.interface_counts_matrix ⟨0, 1, 2, 3⟩)
      ≠ heapRead [[3], [0]] (SedGenRefs.interface_counts_matrix ⟨0, 1, 2, 3⟩)
    := by
  have := c10_shallow_copy_mutates_original [[3], [0]] ⟨0, 1, 2, 3⟩ 0 0 5
    (by decide) (by decide) (by decide)
  exact this

/-! ## Inter-crystal breakage (initialization.py lines 786-921) -/

/-- Modelled from the spec: `gen.normalize` (sedgen.general, not under
src/) divides an array by its sum. -/
def normalizeQ (l : List ℚ) : List ℚ := l.map (fun x => x / l.sum)

/-- Embedding of `calculate_normalized_probability` (initialization.py
lines 1382-1385): elementwise product of the location weights and the
constant interface probabilities, divided by its sum. -/
def calculate_normalized_probability (location_prob : List Nat)
    (prob : List ℚ) : List ℚ :=
  normalizeQ (List.zipWith (fun a b => a * b)
    (location_prob.map (fun (a : Nat) => (a : ℚ))) prob)

/-- `np.cumsum`. -/
def cumsum (l : List ℚ) : List ℚ :=
  (List.range l.length).map (fun i => (l.take (i + 1)).sum)

/-- Embedding of `select_interface` (initialization.py lines 1368-1377):
`(c[i] < np.cumsum(probs)).argmax() + 1`; numpy's `argmax` of an
all-False boolean array is 0, and `List.findIdx` returns the length when
no entry matches. -/
def select_interface (c : ℚ) (probs : List ℚ) : Nat :=
  let idx := (cumsum probs).findIdx (fun s => decide (c < s))
  (if idx = probs.length then 0 else idx) + 1

/-- The normalized per-interface probabilities of a pcg
(initialization.py lines 843-856): location weight times constant weight
when `enable_interface_location_prob` is set (the standard-case table
entry equals `create_interface_location_prob` at the pcg's length),
otherwise the normalized constant weights. -/
def probabilityNormalizedOf (enable_loc : Bool) (n : Nat)
    (prob : List ℚ) : List ℚ :=
  if enable_loc then
    calculate_normalized_probability (create_interface_location_prob n) prob
  else normalizeQ prob

/-- One new pcg: mineral labels, size bins, chem states and interface
probabilities. -/
structure Fragment where
  pcg : List Nat
  csize : List Nat
  chem : List Nat
  prob : List ℚ

/-- The two parts produced from one pcg broken at `interface` by the
default branch of `inter_crystal_breakage` (initialization.py lines
873-895): the left part `pcg[:interface]` is emitted as a new pcg with
probabilities `prob[:interface-1]` unless `interface == 1`, in which case
its single crystal is appended to `mcg_temp[chem][mineral]`; the right
part `pcg[interface:]` with probabilities `prob[interface:]` is emitted
unless it has length 1, in which case its crystal goes to `mcg_temp`. -/
def interCbParts (pcg csize chem : List Nat) (prob : List ℚ)
    (interface : Nat) : List Fragment × List (Nat × Nat × Nat) :=
  let pcg_length := pcg.length
  let first : List Fragment × List (Nat × Nat × Nat) :=
    if interface ≠ 1 then
      ([⟨pcg.take interface, csize.take interface, chem.take interface,
          prob.take (interface - 1)⟩], [])
    else
      ([], [(chem.getD (interface - 1) 0, pcg.getD (interface - 1) 0,
        csize.getD (interface - 1) 0)])
  let second : List Fragment × List (Nat × Nat × Nat) :=
    if pcg_length - interface ≠ 1 then
      ([⟨pcg.drop interface, csize.drop interface, chem.drop interface,
          prob.drop interface⟩], [])
    else
      ([], [(chem.getD interface 0, pcg.getD interface 0,
        csize.getD interface 0)])
  (first.1 ++ second.1, first.2 ++ second.2)

/-- The mineral pair whose interface count is decremented
(initialization.py line 900):
`interface_counts_matrix[pcg[interface-1], pcg[interface]] -= 1`. -/
def interCbPair (pcg : List Nat) (interface : Nat) : Nat × Nat :=
  (pcg.getD (interface - 1) 0, pcg.getD interface 0)

/-- Per-pcg body of `inter_crystal_breakage` in the default single-break
branch: compute the normalized probabilities, select the interface from
the pcg's uniform draw, split, and name the decremented pair. -/
def inter_crystal_breakage_pcg (enable_loc : Bool)
    (pcg csize chem : List Nat) (prob : List ℚ) (c : ℚ) :
    (List Fragment × List (Nat × Nat × Nat)) × (Nat × Nat) :=
  let interface :=
    select_interface c (probabilityNormalizedOf enable_loc pcg.length prob)
  (interCbParts pcg csize chem prob interface, interCbPair pcg interface)

/-- `np.array_split(a, idxs)` for a sorted index vector: the slices
between consecutive split indices. -/
def npArraySplitAux {α : Type} (a : List α) (prev : Nat) :
    List Nat → List (List α)
  | [] => [a.drop prev]
  | i :: rest => (a.take i).drop prev :: npArraySplitAux a i rest

def npArraySplit {α : Type} (a : List α) (idxs : List Nat) :
    List (List α) :=
  npArraySplitAux a 0 idxs

/-- The fragments computed by the `enable_multi_pcg_breakage` branch
(initialization.py lines 861-872):
`prob_selected = probability_normalized[interface]` (note: this reads one
position past the selected interface),
`interfaces_selected = np.where(probability_normalized > prob_selected)[0]`,
`pcg_new = np.array_split(pcg, interfaces_selected)`. -/
def multi_pcg_fragments (pcg : List Nat)
    (probability_normalized : List ℚ) (interface : Nat) :
    List (List Nat) :=
  let prob_selected := probability_normalized.getD interface 0
  let interfaces_selected :=
    (probability_normalized.enum.filter
      (fun ip => decide (prob_selected < ip.2))).map (fun ip => ip.1)
  npArraySplit pcg interfaces_selected

/-- The contribution of a pcg processed by the multi-breakage branch to
the outputs of `inter_crystal_breakage`: the branch computes `pcg_new`,
`csize_new`, `chem_new` and `prob_new` into local variables and then ends
— nothing is appended to `pcgs_new` (or the size/chem/prob lists), no
crystal is recorded in `mcg_temp`, and `interface_counts_matrix` is not
touched (the decrement at line 900 sits in the `else` branch).  The pcg
and all its fragments are dropped from the model. -/
def multi_pcg_branch_output : List (List Nat) × List (Nat × Nat × Nat) :=
  ([], [])

/-- Claim C2 is what the docstring and spec intend, but the
multi-breakage branch discards everything it computes: at the concrete
input below the selected interface is 2, the computed `np.array_split`
fragments are `[[0], [1, 0, 1]]` — containing the fragment `[1, 0, 1]` of
length 3 ≥ 2 — yet the branch emits no pcg and no mcg at all. -/
theorem c2_multi_breakage_drops_fragments :
    select_interface 2 [1, 2, 1] = 2 ∧
    multi_pcg_fragments [0, 1, 0, 1] [1, 2, 1] 2 = [[0], [1, 0, 1]] ∧
    [1, 0, 1] ∈ multi_pcg_fragments [0, 1, 0, 1] [1, 2, 1] 2 ∧
    2 ≤ ([1, 0, 1] : List Nat).length ∧
    multi_pcg_branch_output = ([], []) := by
  have hsel : select_interface 2 [1, 2, 1] = 2 := by
    have hcs : cumsum [1, 2, 1] = [1, 3, 4] := by
      simp [cumsum, List.range_succ]
      norm_num
    rw [select_interface, hcs]
    norm_num [List.findIdx_cons]
  have hfrag : multi_pcg_fragments [0, 1, 0, 1] [1, 2, 1] 2
      = [[0], [1, 0, 1]] := by
    have h1 : ¬ ((1 : ℚ) < 1) := by norm_num
    have h2 : (1 : ℚ) < 2 := by norm_num
    simp [multi_pcg_fragments, List.enum, List.enumFrom, h1, h2,
      npArraySplit, npArraySplitAux]
  exact ⟨hsel, hfrag, by rw [hfrag]; simp, by simp, rfl⟩

/-! ## Interface counting and the counts matrix -/

/-- Modelled from the spec: `gen.count_and_convert_interfaces_to_matrix`
(sedgen.general, not under src/) builds the M×M matrix of directed
adjacent-pair counts of a label array; a pair is counted only when both
labels are valid minerals (< M), so the inserted separator value M
produces no pair.  Only the total over all matrix entries is modelled. -/
def count_interfaces_total (M : Nat) : List Nat → Nat
  | a :: b :: rest =>
      (if a < M ∧ b < M then 1 else 0) +
        count_interfaces_total M (b :: rest)
  | _ => 0

/-- The flat label array with the separator value `n_minerals` inserted
at the pcg boundaries
(`np.insert(pcg_remaining, pcg_lengths_cumul[:-1], n_minerals)`,
initialization.py lines 1133-1136): one separator between consecutive
per-pcg segments. -/
def pcg_concat_for_interfaces (M : Nat) : List (List Nat) → List Nat
  | [] => []
  | [s] => s
  | s :: rest => s ++ M :: pcg_concat_for_interfaces M rest

/-- Sum over all entries of the interface-counts matrix, the quantity of
invariant P2. -/
def matTotal (mat : List (List Int)) : Int := (mat.map List.sum).sum

/-- `interface_counts_matrix[a, b] -= 1` (initialization.py line 900). -/
def matDecrement (mat : List (List Int)) (a b : Nat) : List (List Int) :=
  mat.set a ((mat.getD a []).set b ((mat.getD a []).getD b 0 - 1))

theorem count_interfaces_total_all_lt {M : Nat} {s : List Nat}
    (hs : ∀ x ∈ s, x < M) :
    count_interfaces_total M s = s.length - 1 := by
  induction s with
  | nil => rfl
  | cons a t ih =>
      cases t with
      | nil => rfl
      | cons b u =>
          have ha : a < M := hs a (by simp)
          have hb : b < M := hs b (by simp)
          rw [count_interfaces_total, if_pos ⟨ha, hb⟩,
              ih (fun x hx => hs x (List.mem_cons_of_mem a hx))]
          simp only [List.length_cons]
          omega

theorem count_interfaces_total_sep_cons (M : Nat) (tail : List Nat) :
    count_interfaces_total M (M :: tail) = count_interfaces_total M tail := by
  cases tail with
  | nil => rfl
  | cons b u =>
      rw [count_interfaces_total, if_neg (by omega)]
      simp

theorem count_interfaces_total_append_sep {M : Nat} {s : List Nat}
    (hs : ∀ x ∈ s, x < M) (tail : List Nat) :
    count_interfaces_total M (s ++ M :: tail)
      = (s.length - 1) + count_interfaces_total M tail := by
  induction s with
  | nil =>
      rw [List.nil_append, count_interfaces_total_sep_cons]
      simp
  | cons a t ih =>
      cases t with
      | nil =>
          have : a :: ([] : List Nat) ++ M :: tail = a :: M :: tail := rfl
          rw [this, count_interfaces_total, if_neg (by omega),
              count_interfaces_total_sep_cons]
          simp
      | cons b u =>
          have ha : a < M := hs a (by simp)
          have hb : b < M := hs b (by simp)
          have hstep : (a :: b :: u) ++ M :: tail
              = a :: ((b :: u) ++ M :: tail) := rfl
          rw [hstep]
          have hbu : (b :: u) ++ M :: tail = b :: (u ++ M :: tail) := rfl
          rw [hbu, count_interfaces_total, if_pos ⟨ha, hb⟩, ← hbu,
              ih (fun x hx => hs x (List.mem_cons_of_mem a hx))]
          simp
          omega

theorem count_interfaces_total_concat {M : Nat} {segs : List (List Nat)}
    (h : ∀ s ∈ segs, ∀ x ∈ s, x < M) :
    count_interfaces_total M (pcg_concat_for_interfaces M segs)
      = (segs.map (fun s => s.length - 1)).sum := by
  induction segs with
  | nil => rfl
  | cons s rest ih =>
      cases rest with
      | nil =>
          rw [pcg_concat_for_interfaces,
              count_interfaces_total_all_lt (h s (by simp))]
          simp
      | cons s2 rest2 =>
          rw [show pcg_concat_for_interfaces M (s :: s2 :: rest2)
              = s ++ M :: pcg_concat_for_interfaces M (s2 :: rest2) from rfl]
          rw [count_interfaces_total_append_sep (h s (by simp)),
              ih (fun t ht x hx => h t (List.mem_cons_of_mem s ht) x hx)]
          simp

theorem sum_set_int (l : List Int) (i : Nat) (x : Int)
    (h : i < l.length) :
    (l.set i x).sum = l.sum - l.getD i 0 + x := by
  induction l generalizing i with
  | nil => simp at h
  | cons a t ih =>
      cases i with
      | zero =>
          simp only [List.set_cons_zero, List.sum_cons, List.getD_cons_zero]
          ring
      | succ j =>
          rw [List.set_cons_succ]
          simp only [List.sum_cons, List.getD_cons_succ]
          rw [ih j (by simpa using h)]
          ring

theorem map_set_comm {α β : Type} (f : α → β) (l : List α) (i : Nat)
    (x : α) : (l.set i x).map f = (l.map f).set i (f x) := by
  induction l generalizing i with
  | nil => rfl
  | cons a t ih =>
      cases i with
      | zero => rfl
      | succ j => simp [ih j]

theorem getD_map_sum (mat : List (List Int)) (a : Nat)
    (ha : a < mat.length) :
    (mat.map List.sum).getD a 0 = (mat.getD a []).sum := by
  rw [List.getD_eq_getElem _ _ (by simpa using ha), List.getElem_map,
      List.getD_eq_getElem _ _ ha]

theorem matTotal_decrement (mat : List (List Int)) (a b : Nat)
    (ha : a < mat.length) (hb : b < (mat.getD a []).length) :
    matTotal (matDecrement mat a b) = matTotal mat - 1 := by
  unfold matTotal matDecrement
  rw [map_set_comm, sum_set_int _ a _ (by simpa using ha),
      sum_set_int _ b _ hb, getD_map_sum mat a ha]
  ring

/-! ## Bounds on the selected interface -/

theorem length_cumsum (l : List ℚ) : (cumsum l).length = l.length := by
  simp [cumsum]

theorem select_interface_ge_one (c : ℚ) (probs : List ℚ) :
    1 ≤ select_interface c probs :=
  Nat.succ_le_succ (Nat.zero_le _)

theorem select_interface_le_length (c : ℚ) (probs : List ℚ)
    (h : probs ≠ []) : select_interface c probs ≤ probs.length := by
  simp only [select_interface]
  by_cases hidx : (cumsum probs).findIdx (fun s => decide (c < s))
      = probs.length
  · rw [if_pos hidx]
    have h1 : 0 < probs.length := List.length_pos.mpr h
    omega
  · rw [if_neg hidx]
    have hle : (cumsum probs).findIdx (fun s => decide (c < s))
        ≤ (cumsum probs).length := by
      apply List.findIdx_le_length
    rw [length_cumsum] at hle
    omega

theorem length_probabilityNormalizedOf (el : Bool) (n : Nat)
    (prob : List ℚ) (hn : 2 ≤ n) (hp : prob.length = n - 1) :
    (probabilityNormalizedOf el n prob).length = n - 1 := by
  cases el
  · rw [show probabilityNormalizedOf false n prob = normalizeQ prob
      from rfl]
    simp [normalizeQ, hp]
  · rw [show probabilityNormalizedOf true n prob
        = calculate_normalized_probability
            (create_interface_location_prob n) prob from rfl]
    simp only [calculate_normalized_probability, normalizeQ,
      List.length_map, List.length_zipWith,
      length_create_interface_location_prob hn, hp]
    omega

/-! ## Facts about the single-break fragments -/

theorem interCbParts_facts (pcg csize chem : List Nat) (prob : List ℚ)
    (k : Nat) (hn : 2 ≤ pcg.length) (hp : prob.length = pcg.length - 1)
    (hk1 : 1 ≤ k) (hk2 : k ≤ pcg.length - 1) :
    ((interCbParts pcg csize chem prob k).1.map
        (fun f => f.pcg.length - 1)).sum = pcg.length - 2 ∧
    (∀ f ∈ (interCbParts pcg csize chem prob k).1,
      2 ≤ f.pcg.length ∧ f.prob.length = f.pcg.length - 1) ∧
    (interCbParts pcg csize chem prob k).1.length
      + (interCbParts pcg csize chem prob k).2.length = 2 := by
  by_cases hA : k = 1
  · subst hA
    by_cases hB : pcg.length - 1 ≠ 1
    · simp only [interCbParts]
      rw [if_neg (by simp), if_pos hB]
      refine ⟨?_, ?_, by simp⟩
      · simp only [List.nil_append, List.map_cons, List.map_nil,
          List.sum_cons, List.sum_nil]
        simp only [List.length_drop]
        omega
      · intro f hf
        simp only [List.nil_append, List.mem_singleton] at hf
        subst hf
        refine ⟨?_, ?_⟩
        · simp only [List.length_drop]
          omega
        · simp only [List.length_drop, hp]
    · simp only [interCbParts]
      rw [if_neg (by simp), if_neg hB]
      refine ⟨?_, ?_, by simp⟩
      · simp only [List.nil_append, List.map_nil, List.sum_nil]
        omega
      · intro f hf
        simp at hf
  · have hA2 : 2 ≤ k := by omega
    by_cases hB : pcg.length - k ≠ 1
    · simp only [interCbParts]
      rw [if_pos hA, if_pos hB]
      refine ⟨?_, ?_, by simp⟩
      · simp only [List.cons_append, List.nil_append, List.map_cons,
          List.map_nil, List.sum_cons, List.sum_nil]
        simp only [List.length_take, List.length_drop]
        omega
      · intro f hf
        simp only [List.cons_append, List.nil_append, List.mem_cons,
          List.not_mem_nil, or_false] at hf
        rcases hf with hf | hf
        · subst hf
          refine ⟨?_, ?_⟩
          · simp only [List.length_take]
            omega
          · simp only [List.length_take, hp]
            omega
        · subst hf
          refine ⟨?_, ?_⟩
          · simp only [List.length_drop]
            omega
          · simp only [List.length_drop, hp]
            omega
    · simp only [interCbParts]
      rw [if_pos hA, if_neg hB]
      refine ⟨?_, ?_, by simp⟩
      · simp only [List.append_nil, List.map_cons, List.map_nil,
          List.sum_cons, List.sum_nil]
        simp only [List.length_take]
        omega
      · intro f hf
        simp only [List.append_nil, List.mem_singleton] at hf
        subst hf
        refine ⟨?_, ?_⟩
        · simp only [List.length_take]
          omega
        · simp only [List.length_take, hp]
          omega

theorem getD_mem_of_lt {α : Type} (l : List α) (i : Nat) (d : α)
    (h : i < l.length) : l.getD i d ∈ l := by
  rw [List.getD_eq_getElem _ _ h]
  exact List.getElem_mem h

/-! ## Chemical weathering of pcgs (initialization.py lines 1069-1211) -/

/-- The model tables used by `chemical_weathering_pcg`:
`negative_volume_thresholds[chem, mineral]`, `size_bins_medians` and the
directed pair strength from `interface_proportions_normalized`. -/
structure ChemPcgCtx where
  negative_volume_thresholds : Nat → Nat → Nat
  size_bins_medians : List ℚ
  strengths : Nat → Nat → ℚ

/-- Surviving crystals of one pcg as (mineral, size-bin, new chem-state)
triples: `chem_concat = chem_concat_old + 1` and a crystal survives iff
`csize >= negative_volume_thresholds[chem_new, mineral]`
(initialization.py lines 1083-1094).  The source keeps mineral, size and
chem-state in three aligned flat arrays; they are carried jointly here. -/
def survivingTriples (ctx : ChemPcgCtx) (pcg csize chem : List Nat) :
    List (Nat × Nat × Nat) :=
  ((pcg.zip (csize.zip chem)).filter (fun t =>
    decide (ctx.negative_volume_thresholds (t.2.2 + 1) t.1 ≤ t.2.1))).map
    (fun t => (t.1, t.2.1, t.2.2 + 1))

/-- Modelled from the spec: the rebuilt per-interface constant weight Z/S
over consecutive surviving crystals of one pcg — Z the sum of the two
flanking size-bin medians (`gen.get_interface_size_prob`), S the directed
pair strength (`gen.get_interface_strengths_prob`); both live in
sedgen.general which is not under src/.  The source computes these on the
separator-joined concatenation, filters the separator entries out and
re-splits at the surviving cumulative lengths minus the running pcg
index, which reproduces exactly this per-segment array of length
`len - 1`. -/
def rebuiltProb (ctx : ChemPcgCtx) (seg : List (Nat × Nat × Nat)) :
    List ℚ :=
  (seg.zip seg.tail).map (fun p =>
    (ctx.size_bins_medians.getD p.1.2.1 0 +
      ctx.size_bins_medians.getD p.2.2.1 0) / ctx.strengths p.1.1 p.2.1)

/-- The pcg-shaped outputs of `chemical_weathering_pcg`
(initialization.py lines 1096-1130 and 1198-1207): per original pcg its
surviving segment; segments of length > 1 stay pcgs, the rebuilt
probability arrays are kept when non-empty
(`[prob for prob in prob_remaining_list if prob.size != 0]`), and each
length-1 segment's crystal is promoted into the mcg counts. -/
def chemical_weathering_pcg_outputs (ctx : ChemPcgCtx)
    (pcgs csizes chems : List (List Nat)) :
    List (List (Nat × Nat × Nat)) × List (List ℚ) ×
      List (Nat × Nat × Nat) :=
  let segs := (pcgs.zip (csizes.zip chems)).map (fun t =>
    survivingTriples ctx t.1 t.2.1 t.2.2)
  let pcgs_new := segs.filter (fun s => decide (1 < s.length))
  let probs_new := (segs.map (rebuiltProb ctx)).filter
    (fun l => decide (l ≠ []))
  let mcg_promoted := (segs.filter (fun s => decide (s.length = 1))).map
    (fun s => s.headD (0, 0, 0))
  (pcgs_new, probs_new, mcg_promoted)

theorem length_rebuiltProb (ctx : ChemPcgCtx)
    (seg : List (Nat × Nat × Nat)) :
    (rebuiltProb ctx seg).length = seg.length - 1 := by
  simp only [rebuiltProb, List.length_map, List.length_zip,
    List.length_tail]
  omega

theorem filter_map_comm {α β : Type} (f : α → β) (p : β → Bool)
    (l : List α) :
    (l.map f).filter p = (l.filter (fun x => p (f x))).map f := by
  induction l with
  | nil => rfl
  | cons a t ih =>
      by_cases h : p (f a) = true
      · simp [h, ih]
      · simp only [List.map_cons, List.filter_cons]
        rw [if_neg h, if_neg h, ih]

/-- Claim C4: the interface-count bookkeeping preserves invariant P2.
For a pcg of length n ≥ 2 the single-break branch emits fragments whose
total of (length - 1) is exactly (n - 1) - 1 while the counts matrix
loses exactly the single count of the broken mineral pair; and the
matrix rebuilt by `chemical_weathering_pcg` counts exactly the adjacent
mineral pairs inside the surviving segments — the inserted separator M
produces no pair — so its total equals the sum of (length - 1) over the
surviving pcgs. -/
theorem c4_interface_count_consistency (enable_loc : Bool)
    (pcg csize chem : List Nat) (prob : List ℚ) (c : ℚ)
    (mat : List (List Int)) (M : Nat) (segs : List (List Nat))
    (hn : 2 ≤ pcg.length) (hp : prob.length = pcg.length - 1)
    (hmat : mat.length = M) (hrows : ∀ row ∈ mat, row.length = M)
    (hpcgM : ∀ x ∈ pcg, x < M)
    (hsegs : ∀ s ∈ segs, ∀ x ∈ s, x < M) :
    (((inter_crystal_breakage_pcg enable_loc pcg csize chem prob c).1.1.map
        (fun f => f.pcg.length - 1)).sum = pcg.length - 2) ∧
    matTotal (matDecrement mat
        (inter_crystal_breakage_pcg enable_loc pcg csize chem prob c).2.1
        (inter_crystal_breakage_pcg enable_loc pcg csize chem prob c).2.2)
      = matTotal mat - 1 ∧
    count_interfaces_total M (pcg_concat_for_interfaces M segs)
      = (segs.map (fun s => s.length - 1)).sum := by
  have hlenp : (probabilityNormalizedOf enable_loc pcg.length prob).length
      = pcg.length - 1 := length_probabilityNormalizedOf _ _ _ hn hp
  have hk1 : 1 ≤ select_interface c
      (probabilityNormalizedOf enable_loc pcg.length prob) :=
    select_interface_ge_one _ _
  have hk2 : select_interface c
      (probabilityNormalizedOf enable_loc pcg.length prob)
      ≤ pcg.length - 1 := by
    have hne : probabilityNormalizedOf enable_loc pcg.length prob ≠ [] := by
      intro hcontra
      rw [hcontra] at hlenp
      simp at hlenp
      omega
    have := select_interface_le_length c
      (probabilityNormalizedOf enable_loc pcg.length prob) hne
    rw [hlenp] at this
    exact this
  have hparts := interCbParts_facts pcg csize chem prob
    (select_interface c (probabilityNormalizedOf enable_loc pcg.length prob))
    hn hp hk1 hk2
  refine ⟨hparts.1, ?_, count_interfaces_total_concat hsegs⟩
  show matTotal (matDecrement mat
      (pcg.getD (select_interface c
        (probabilityNormalizedOf enable_loc pcg.length prob) - 1) 0)
      (pcg.getD (select_interface c
        (probabilityNormalizedOf enable_loc pcg.length prob)) 0))
    = matTotal mat - 1
  have ha : pcg.getD (select_interface c
      (probabilityNormalizedOf enable_loc pcg.length prob) - 1) 0
      < mat.length := by
    rw [hmat]
    exact hpcgM _ (getD_mem_of_lt _ _ _ (by omega))
  have hb : pcg.getD (select_interface c
      (probabilityNormalizedOf enable_loc pcg.length prob)) 0
      < (mat.getD (pcg.getD (select_interface c
        (probabilityNormalizedOf enable_loc pcg.length prob) - 1) 0)
        []).length := by
    rw [hrows _ (getD_mem_of_lt _ _ _ ha)]
    exact hpcgM _ (getD_mem_of_lt _ _ _ (by omega))
  exact matTotal_decrement mat _ _ ha hb

theorem c4_interface_count_consistency_witness :
    (((inter_crystal_breakage_pcg false [0, 1, 0] [0, 0, 0] [0, 0, 0]
        [1, 1] 0).1.1.map
        (fun f => f.pcg.length - 1)).sum = ([0, 1, 0] : List Nat).length - 2) ∧
    matTotal (matDecrement [[2, 1], [1, 0]]
        (inter_crystal_breakage_pcg false [0, 1, 0] [0, 0, 0] [0, 0, 0]
          [1, 1] 0).2.1
        (inter_crystal_breakage_pcg false [0, 1, 0] [0, 0, 0] [0, 0, 0]
          [1, 1] 0).2.2)
      = matTotal [[2, 1], [1, 0]] - 1 ∧
    count_interfaces_total 2 (pcg_concat_for_interfaces 2 [[0, 1], [1]])
      = ([[0, 1], [1]].map (fun s => s.length - 1)).sum :=
  c4_interface_count_consistency false [0, 1, 0] [0, 0, 0] [0, 0, 0]
    [1, 1] 0 [[2, 1], [1, 0]] 2 [[0, 1], [1]]
    (by decide) (by decide) (by decide) (by decide) (by decide) (by decide)

/-- Trivial tables for the chem-pcg witness. -/
def exampleChemPcgCtx : ChemPcgCtx where
  negative_volume_thresholds := fun _ _ => 0
  size_bins_medians := []
  strengths := fun _ _ => 1

/-- Claim C5: the single-break branch emits only fragments of length ≥ 2
whose probability array has exactly (length - 1) entries, and both parts
of the broken pcg are accounted for (as a new pcg or as an mcg count);
`chemical_weathering_pcg` keeps only segments of length ≥ 2 as pcgs, its
rebuilt probability arrays align index-by-index with the kept pcgs at
exactly (length - 1) entries, and it promotes exactly one mcg per
length-1 segment. -/
theorem c5_pcg_invariants (enable_loc : Bool)
    (pcg csize chem : List Nat) (prob : List ℚ) (c : ℚ)
    (ctx : ChemPcgCtx) (pcgs csizes chems : List (List Nat))
    (hn : 2 ≤ pcg.length) (hp : prob.length = pcg.length - 1) :
    (∀ f ∈ (inter_crystal_breakage_pcg enable_loc pcg csize chem prob
        c).1.1, 2 ≤ f.pcg.length ∧ f.prob.length = f.pcg.length - 1) ∧
    ((inter_crystal_breakage_pcg enable_loc pcg csize chem prob
        c).1.1.length
      + (inter_crystal_breakage_pcg enable_loc pcg csize chem prob
        c).1.2.length = 2) ∧
    (∀ p ∈ (chemical_weathering_pcg_outputs ctx pcgs csizes chems).1,
      2 ≤ p.length) ∧
    (∀ i : Nat,
      (((chemical_weathering_pcg_outputs ctx pcgs csizes
          chems).2.1.getD i []).length
        = (((chemical_weathering_pcg_outputs ctx pcgs csizes
          chems).1.getD i []).length) - 1)) ∧
    ((chemical_weathering_pcg_outputs ctx pcgs csizes chems).2.2.length
      = (((pcgs.zip (csizes.zip chems)).map (fun t =>
          survivingTriples ctx t.1 t.2.1 t.2.2)).filter
          (fun s => decide (s.length = 1))).length) := by
  have hlenp : (probabilityNormalizedOf enable_loc pcg.length prob).length
      = pcg.length - 1 := length_probabilityNormalizedOf _ _ _ hn hp
  have hk1 : 1 ≤ select_interface c
      (probabilityNormalizedOf enable_loc pcg.length prob) :=
    select_interface_ge_one _ _
  have hk2 : select_interface c
      (probabilityNormalizedOf enable_loc pcg.length prob)
      ≤ pcg.length - 1 := by
    have hne : probabilityNormalizedOf enable_loc pcg.length prob ≠ [] := by
      intro hcontra
      rw [hcontra] at hlenp
      simp at hlenp
      omega
    have := select_interface_le_length c
      (probabilityNormalizedOf enable_loc pcg.length prob) hne
    rw [hlenp] at this
    exact this
  have hparts := interCbParts_facts pcg csize chem prob
    (select_interface c (probabilityNormalizedOf enable_loc pcg.length prob))
    hn hp hk1 hk2
  have hfilters : ((pcgs.zip (csizes.zip chems)).map (fun t =>
        survivingTriples ctx t.1 t.2.1 t.2.2)).filter
        (fun s => decide (rebuiltProb ctx s ≠ []))
      = ((pcgs.zip (csizes.zip chems)).map (fun t =>
        survivingTriples ctx t.1 t.2.1 t.2.2)).filter
        (fun s => decide (1 < s.length)) := by
    refine List.filter_congr fun s _ => ?_
    rw [decide_eq_decide]
    constructor
    · intro hne
      have hlen : (rebuiltProb ctx s).length ≠ 0 := by
        intro hcontra
        exact hne (List.length_eq_zero.mp hcontra)
      rw [length_rebuiltProb] at hlen
      omega
    · intro hlt
      intro hcontra
      have := congrArg List.length hcontra
      rw [length_rebuiltProb] at this
      simp at this
      omega
  have hprobs : (chemical_weathering_pcg_outputs ctx pcgs csizes
      chems).2.1 = ((chemical_weathering_pcg_outputs ctx pcgs csizes
      chems).1.map (rebuiltProb ctx)) := by
    show ((((pcgs.zip (csizes.zip chems)).map (fun t =>
        survivingTriples ctx t.1 t.2.1 t.2.2)).map
        (rebuiltProb ctx)).filter (fun l => decide (l ≠ []))) = _
    rw [filter_map_comm, hfilters]
    rfl
  refine ⟨hparts.2.1, hparts.2.2, ?_, ?_, ?_⟩
  · intro p hp2
    have hmem := List.mem_filter.mp hp2
    have := of_decide_eq_true hmem.2
    omega
  · intro i
    rw [hprobs]
    by_cases hi : i < (chemical_weathering_pcg_outputs ctx pcgs csizes
        chems).1.length
    · rw [List.getD_eq_getElem _ _ (by simpa using hi),
          List.getElem_map, List.getD_eq_getElem _ _ hi,
          length_rebuiltProb]
    · have hge : (chemical_weathering_pcg_outputs ctx pcgs csizes
          chems).1.length ≤ i := by omega
      rw [List.getD_eq_default _ _ (by simpa using hge),
          List.getD_eq_default _ _ hge]
      rfl
  · show ((((pcgs.zip (csizes.zip chems)).map (fun t =>
        survivingTriples ctx t.1 t.2.1 t.2.2)).filter
        (fun s => decide (s.length = 1))).map
        (fun s => s.headD (0, 0, 0))).length = _
    rw [List.length_map]

theorem c5_pcg_invariants_witness :
    (∀ f ∈ (inter_crystal_breakage_pcg false [0, 1, 0] [0, 0, 0]
        [0, 0, 0] [1, 1] 0).1.1,
      2 ≤ f.pcg.length ∧ f.prob.length = f.pcg.length - 1) ∧
    ((inter_crystal_breakage_pcg false [0, 1, 0] [0, 0, 0] [0, 0, 0]
        [1, 1] 0).1.1.length
      + (inter_crystal_breakage_pcg false [0, 1, 0] [0, 0, 0] [0, 0, 0]
        [1, 1] 0).1.2.length = 2) ∧
    (∀ p ∈ (chemical_weathering_pcg_outputs exampleChemPcgCtx [[0, 1]]
        [[0, 0]] [[0, 0]]).1, 2 ≤ p.length) ∧
    (∀ i : Nat,
      (((chemical_weathering_pcg_outputs exampleChemPcgCtx [[0, 1]]
          [[0, 0]] [[0, 0]]).2.1.getD i []).length
        = (((chemical_weathering_pcg_outputs exampleChemPcgCtx [[0, 1]]
          [[0, 0]] [[0, 0]]).1.getD i []).length) - 1)) ∧
    ((chemical_weathering_pcg_outputs exampleChemPcgCtx [[0, 1]]
        [[0, 0]] [[0, 0]]).2.2.length
      = (((([[0, 1]] : List (List Nat)).zip
          ((([[0, 0]] : List (List Nat))).zip
            (([[0, 0]] : List (List Nat))))).map (fun t =>
          survivingTriples exampleChemPcgCtx t.1 t.2.1 t.2.2)).filter
          (fun s => decide (s.length = 1))).length) :=
  c5_pcg_invariants false [0, 1, 0] [0, 0, 0] [0, 0, 0] [1, 1] 0
    exampleChemPcgCtx [[0, 1]] [[0, 0]] [[0, 0]] (by decide) (by decide)

end SedGen
